import Mathlib

/-!
Verification of the faiss-embedder pipeline against its specification.

The JavaScript sources are shallowly embedded: JS strings become `List Char`
(`Str`), arrays become `List`, the sequential loops become structural
recursions carrying their mutable state explicitly, and the external
collaborators (the Ollama embedding oracle, the faiss nearest-neighbor
engine) become function parameters, so every theorem quantifies over their
possible behaviors.  Fallible operations return `Except` / `Option`.
-/

/-- JavaScript strings are modelled as lists of characters. -/
abbrev Str := List Char

/-- Whitespace characters recognized by `String.prototype.trim`
(space, tab, line feed, carriage return, vertical tab, form feed,
no-break space). -/
def isJsWhitespace (c : Char) : Bool :=
  c == ' ' || c == '\t' || c == '\n' || c == '\r' ||
  c == Char.ofNat 11 || c == Char.ofNat 12 || c == Char.ofNat 160

/-- Model of `String.prototype.trim`: remove whitespace from both ends. -/
def jsTrim (s : Str) : Str :=
  ((s.dropWhile isJsWhitespace).reverse.dropWhile isJsWhitespace).reverse

/-- `!chunk.trim()` from `FaissIndexer.build`: the chunk text is blank or
whitespace-only (the empty string is the only falsy string). -/
def isBlank (s : Str) : Bool := (jsTrim s).isEmpty

/-- One item of the pre-build `metadata.json` array (`{doc, chunk, chunk_id}`).
`item.chunk || ""` makes a missing chunk behave as the empty string, so the
field is total here.  Extra fields are carried through `build` unchanged and
play no role in the claims, so they are not modelled. -/
structure MetaItem where
  doc : Str
  chunk_id : Str
  chunk : Str
deriving DecidableEq

/-- One record of the post-build metadata array, as pushed by
`FaissIndexer.build`: `{id, doc, chunk_id, chunk}`. -/
structure IndexEntry where
  id : Nat
  doc : Str
  chunk_id : Str
  chunk : Str
deriving DecidableEq

/-- The state mutated by the loop of `FaissIndexer.build`:
the vectors appended to the faiss index (`this.index.add`), the metadata
records (`this.metadata.push`), and the `(current, total)` arguments of the
`onProgress` invocations, in order.  `α` is the vector type produced by the
external embedder. -/
structure BuildState (α : Type) where
  vectors : List α
  metadata : List IndexEntry
  progress : List (Nat × Nat)
deriving DecidableEq

namespace FaissIndexer

/-- The `for (let i = 0; i < metadata.length; i++)` loop of
`FaissIndexer.build`.  `embedNorm` is the composition
`this.embedder.normalize (await this.embedder.embed chunk)` — the external
oracle followed by normalization, abstract here.  A blank chunk is skipped
by `continue` before any of the three effects happens. -/
def buildLoop {α : Type} (embedNorm : Str → α) (total : Nat) :
    List MetaItem → Nat → BuildState α → BuildState α
  | [], _, st => st
  | item :: rest, i, st =>
    if isBlank item.chunk then
      buildLoop embedNorm total rest (i + 1) st
    else
      buildLoop embedNorm total rest (i + 1)
        { vectors := st.vectors ++ [embedNorm item.chunk]
          metadata := st.metadata ++
            [⟨st.metadata.length, item.doc, item.chunk_id, item.chunk⟩]
          progress := st.progress ++ [(i + 1, total)] }

/-- `FaissIndexer.build` on an already-loaded metadata array, starting from
the fresh index and empty `this.metadata` it installs. -/
def build {α : Type} (embedNorm : Str → α) (items : List MetaItem) :
    BuildState α :=
  buildLoop embedNorm items.length items 0 ⟨[], [], []⟩

theorem buildLoop_eq {α : Type} (f : Str → α) (total : Nat) :
    ∀ (l : List MetaItem) (i : Nat) (st : BuildState α),
    buildLoop f total l i st =
      { vectors := st.vectors ++
          (l.filter (fun it => !isBlank it.chunk)).map (fun it => f it.chunk)
        metadata := st.metadata ++
          (List.enumFrom st.metadata.length
            (l.filter (fun it => !isBlank it.chunk))).map
            (fun p => ⟨p.1, p.2.doc, p.2.chunk_id, p.2.chunk⟩)
        progress := st.progress ++
          ((List.enumFrom i l).filter (fun p => !isBlank p.2.chunk)).map
            (fun p => (p.1 + 1, total)) }
  | [], i, st => by simp [buildLoop]
  | item :: rest, i, st => by
    by_cases hb : isBlank item.chunk
    · simp [buildLoop, hb, List.filter_cons, List.enumFrom_cons,
        buildLoop_eq f total rest (i + 1) st]
    · simp only [buildLoop, hb, if_neg, Bool.not_eq_true]
      rw [buildLoop_eq f total rest (i + 1)]
      simp [List.filter_cons, hb, List.enumFrom_cons, List.append_assoc]

theorem build_eq {α : Type} (f : Str → α) (items : List MetaItem) :
    build f items =
      { vectors :=
          (items.filter (fun it => !isBlank it.chunk)).map (fun it => f it.chunk)
        metadata :=
          (List.enumFrom 0 (items.filter (fun it => !isBlank it.chunk))).map
            (fun p => ⟨p.1, p.2.doc, p.2.chunk_id, p.2.chunk⟩)
        progress :=
          ((List.enumFrom 0 items).filter (fun p => !isBlank p.2.chunk)).map
            (fun p => (p.1 + 1, items.length)) } := by
  rw [build, buildLoop_eq]
  simp

end FaissIndexer

/-- Claim C1 (confirmed): after every successful `FaissIndexer.build`, the
stored metadata sequence has the same length as the index's vector count, and
the entry at each ordinal `i` has `id = i` and corresponds to the vector
appended at ordinal `i` (that vector is exactly the normalized embedding of
the entry's chunk text). -/
theorem build_positional_alignment {α : Type} (f : Str → α)
    (items : List MetaItem) (i : Nat)
    (h : i < (FaissIndexer.build f items).metadata.length) :
    (FaissIndexer.build f items).metadata.length =
      (FaissIndexer.build f items).vectors.length ∧
    ((FaissIndexer.build f items).metadata[i]?).map IndexEntry.id = some i ∧
    (FaissIndexer.build f items).vectors[i]? =
      ((FaissIndexer.build f items).metadata[i]?).map (fun e => f e.chunk) := by
  rw [FaissIndexer.build_eq] at h ⊢
  simp only [List.length_map, List.enumFrom_length] at h
  refine ⟨by simp, ?_, ?_⟩
  · simp [List.getElem?_eq_getElem, h, List.getElem_enumFrom]
  · simp [List.getElem?_eq_getElem, h, List.getElem_enumFrom]

/-- Witness for C1 on a concrete two-item input. -/
theorem build_positional_alignment_witness :
    1 < (FaissIndexer.build (fun s => s.length)
      [⟨[], [], ['h', 'i']⟩, ⟨['d'], ['c'], ['y', 'o', 'u']⟩]).metadata.length ∧
    ((FaissIndexer.build (fun s => s.length)
      [⟨[], [], ['h', 'i']⟩, ⟨['d'], ['c'], ['y', 'o', 'u']⟩]).metadata.length =
      (FaissIndexer.build (fun s => s.length)
        [⟨[], [], ['h', 'i']⟩, ⟨['d'], ['c'], ['y', 'o', 'u']⟩]).vectors.length ∧
    ((FaissIndexer.build (fun s => s.length)
      [⟨[], [], ['h', 'i']⟩, ⟨['d'], ['c'], ['y', 'o', 'u']⟩]).metadata[1]?).map
        IndexEntry.id = some 1 ∧
    (FaissIndexer.build (fun s => s.length)
      [⟨[], [], ['h', 'i']⟩, ⟨['d'], ['c'], ['y', 'o', 'u']⟩]).vectors[1]? =
      ((FaissIndexer.build (fun s => s.length)
        [⟨[], [], ['h', 'i']⟩, ⟨['d'], ['c'], ['y', 'o', 'u']⟩]).metadata[1]?).map
        (fun e => (fun (s : Str) => s.length) e.chunk)) :=
  ⟨by decide,
   build_positional_alignment (fun s => s.length)
     [⟨[], [], ['h', 'i']⟩, ⟨['d'], ['c'], ['y', 'o', 'u']⟩] 1 (by decide)⟩

/-- Claim C2 (confirmed): on an input of `N` metadata items of which `M` have
blank or whitespace-only chunk text, `FaissIndexer.build` stores exactly
`N - M` vectors, and no blank item ever reaches the persisted metadata
sequence. -/
theorem build_blank_skip {α : Type} (f : Str → α) (items : List MetaItem) :
    (FaissIndexer.build f items).vectors.length =
      items.length - (items.filter (fun it => isBlank it.chunk)).length ∧
    ∀ e ∈ (FaissIndexer.build f items).metadata, isBlank e.chunk = false := by
  constructor
  · rw [FaissIndexer.build_eq]
    have hsplit := List.length_eq_length_filter_add
      (l := items) (fun it => isBlank it.chunk)
    simp only [List.length_map]
    omega
  · intro e he
    rw [FaissIndexer.build_eq] at he
    simp only [List.mem_map] at he
    obtain ⟨p, hp, rfl⟩ := he
    have hsnd : p.2 ∈ items.filter (fun it => !isBlank it.chunk) := by
      have hmap := List.enumFrom_map_snd 0 (items.filter (fun it => !isBlank it.chunk))
      rw [← hmap]
      exact List.mem_map_of_mem Prod.snd hp
    have := (List.mem_filter.mp hsnd).2
    simpa using this

/-- Witness for C2: three items, two of them blank, give one vector and a
blank-free metadata sequence. -/
theorem build_blank_skip_witness :
    (FaissIndexer.build (fun s => s.length)
      [⟨[], ['a'], ['h', 'i']⟩, ⟨[], ['b'], [' ']⟩, ⟨[], ['c'], []⟩]).vectors.length =
      3 - 2 ∧
    isBlank (IndexEntry.mk 0 [] ['a'] ['h', 'i']).chunk = false :=
  ⟨by
    have h := (build_blank_skip (fun s => s.length)
      [⟨[], ['a'], ['h', 'i']⟩, ⟨[], ['b'], [' ']⟩, ⟨[], ['c'], []⟩]).1
    simpa using h,
   (build_blank_skip (fun s => s.length)
      [⟨[], ['a'], ['h', 'i']⟩, ⟨[], ['b'], [' ']⟩, ⟨[], ['c'], []⟩]).2
     (IndexEntry.mk 0 [] ['a'] ['h', 'i']) (by decide)⟩

/-- Counterexample to claim C7 as stated: with one non-blank item followed by
one blank item, the progress callback fires only once — not once per input
item — and the last reported completed count never reaches the input length. -/
theorem build_progress_counterexample :
    (FaissIndexer.build (fun s => s.length)
      [⟨[], ['a'], ['h', 'i']⟩, ⟨[], ['b'], [' ']⟩]).progress = [(1, 2)] ∧
    (FaissIndexer.build (fun s => s.length)
      [⟨[], ['a'], ['h', 'i']⟩, ⟨[], ['b'], [' ']⟩]).progress.length ≠ 2 := by
  decide

theorem pairwise_fst_lt_enumFrom {α : Type} :
    ∀ (n : Nat) (l : List α),
    List.Pairwise (fun a b => a.1 < b.1) (List.enumFrom n l)
  | _, [] => List.Pairwise.nil
  | n, x :: xs => by
    rw [List.enumFrom_cons]
    refine List.Pairwise.cons ?_ (pairwise_fst_lt_enumFrom (n + 1) xs)
    intro p hp
    have hge : n + 1 ≤ p.1 := List.le_fst_of_mem_enumFrom hp
    omega

/-- Claim C7 (corrected): during `FaissIndexer.build` the progress callback is
invoked exactly once per non-blank input item — blank items are skipped by
`continue` before the callback — with arguments (input ordinal + 1, input
length); the reported completed counts are therefore strictly increasing but
may skip the ordinals of blank items and may stop short of the input length. -/
theorem build_progress_per_nonblank_item {α : Type} (f : Str → α)
    (items : List MetaItem) :
    (FaissIndexer.build f items).progress =
      ((List.enumFrom 0 items).filter (fun p => !isBlank p.2.chunk)).map
        (fun p => (p.1 + 1, items.length)) ∧
    List.Pairwise (fun a b => a.1 < b.1)
      (FaissIndexer.build f items).progress := by
  refine ⟨by rw [FaissIndexer.build_eq], ?_⟩
  rw [FaissIndexer.build_eq]
  simp only [List.pairwise_map]
  have hbase := pairwise_fst_lt_enumFrom 0 items
  have hfilter := List.Pairwise.filter
    (p := fun p => !isBlank p.2.chunk) hbase
  exact hfilter.imp (by intro a b h; omega)

/-- Index conversion of `String.prototype.slice`: negative indices count from
the end, and both indices are clamped to `[0, length]`. -/
def jsSliceIndex (len : Nat) (i : Int) : Nat :=
  if i < 0 then ((len : Int) + i).toNat else min i.toNat len

/-- Model of `text.slice(a, b)` on a JavaScript string. -/
def jsSlice (s : Str) (a b : Int) : Str :=
  let lo := jsSliceIndex s.length a
  let hi := jsSliceIndex s.length b
  (s.take hi).drop lo

namespace TextSplitter

/-- The `while (start < text.length)` loop of `chunkTextSync`
(src/lib/textSplitter.js lines 173-185), with an explicit fuel because the
source loop does not terminate for every configuration.  `none` means the
fuel ran out, i.e. the loop was still running. -/
def chunkTextSyncLoop (text : Str) (chunkSize overlap : Int) :
    Nat → Int → List Str → Option (List Str)
  | 0, _, _ => none
  | fuel + 1, start, chunks =>
    if start < (text.length : Int) then
      let e := min (start + chunkSize) (text.length : Int)
      let chunks' := chunks ++ [jsSlice text start e]
      let start' := e - overlap
      if start' + overlap ≥ (text.length : Int) then some chunks'
      else chunkTextSyncLoop text chunkSize overlap fuel start' chunks'
    else some chunks

/-- `chunkTextSync(text, chunkSize, overlap)` run with the given fuel. -/
def chunkTextSync (text : Str) (chunkSize overlap : Int) (fuel : Nat) :
    Option (List Str) :=
  chunkTextSyncLoop text chunkSize overlap fuel 0 []

theorem chunkTextSyncLoop_terminates (text : Str) (chunkSize overlap : Int)
    (hov : 0 ≤ overlap) (hlt : overlap < chunkSize) :
    ∀ (fuel : Nat) (start : Int) (chunks : List Str),
    0 ≤ start → ((text.length : Int) - start).toNat < fuel →
    ∃ out, chunkTextSyncLoop text chunkSize overlap fuel start chunks = some out
  | 0, start, chunks => by omega
  | fuel + 1, start, chunks => by
    intro hs hfuel
    rw [chunkTextSyncLoop]
    by_cases hrun : start < (text.length : Int)
    · rw [if_pos hrun]
      by_cases hbrk :
          min (start + chunkSize) (text.length : Int) - overlap + overlap ≥
            (text.length : Int)
      · rw [if_pos hbrk]
        exact ⟨_, rfl⟩
      · rw [if_neg hbrk]
        refine chunkTextSyncLoop_terminates text chunkSize overlap hov hlt
          fuel _ _ ?_ ?_
        · omega
        · omega
    · rw [if_neg hrun]
      exact ⟨_, rfl⟩

end TextSplitter

/-- Claim C9 (confirmed): for every input text and every configuration whose
overlap is nonnegative and strictly less than the target chunk size,
`chunkTextSync` terminates — fuel `text.length + 1` always suffices to
produce its finite chunk sequence. -/
theorem chunkTextSync_terminates (text : Str) (chunkSize overlap : Int)
    (hov : 0 ≤ overlap) (hlt : overlap < chunkSize) :
    ∃ out, TextSplitter.chunkTextSync text chunkSize overlap
      (text.length + 1) = some out :=
  TextSplitter.chunkTextSyncLoop_terminates text chunkSize overlap hov hlt
    (text.length + 1) 0 [] (by omega) (by omega)

/-- Witness for C9: the spec's own 20-character example with target 10 and
overlap 3 terminates. -/
theorem chunkTextSync_terminates_witness :
    (0 : Int) ≤ 3 ∧ (3 : Int) < 10 ∧
    ∃ out, TextSplitter.chunkTextSync
      ['0', '1', '2', '3', '4', '5', '6', '7', '8', '9',
       'A', 'B', 'C', 'D', 'E', 'F', 'G', 'H', 'I', 'J'] 10 3 21 = some out :=
  ⟨by decide, by decide,
   chunkTextSync_terminates
     ['0', '1', '2', '3', '4', '5', '6', '7', '8', '9',
      'A', 'B', 'C', 'D', 'E', 'F', 'G', 'H', 'I', 'J'] 10 3
     (by decide) (by decide)⟩

theorem chunkTextSyncLoop_stuck :
    ∀ (fuel : Nat) (chunks : List Str),
    TextSplitter.chunkTextSyncLoop
      ['0', '1', '2', '3', '4', '5', '6', '7', '8', '9'] 3 3 fuel 0 chunks =
      none
  | 0, _ => rfl
  | fuel + 1, chunks => by
    rw [TextSplitter.chunkTextSyncLoop]
    norm_num
    exact chunkTextSyncLoop_stuck fuel _

/-- Claim C6 (code_bug): `chunkTextSync` performs no configuration
validation at all.  With overlap equal to the chunk size on a ten-character
input the window never advances: for every fuel bound the loop is still
running, so the source loops forever instead of failing with
`InvalidConfiguration` as the spec requires of every splitter entry point. -/
theorem chunkTextSync_no_validation_diverges :
    ∀ fuel : Nat,
    TextSplitter.chunkTextSync
      ['0', '1', '2', '3', '4', '5', '6', '7', '8', '9'] 3 3 fuel = none :=
  fun fuel => chunkTextSyncLoop_stuck fuel []

/-- Model of `hay.includes(needle)` on JavaScript strings: some tail of the
haystack starts with the needle. -/
def jsIncludes (hay needle : Str) : Bool :=
  hay.tails.any (fun t => needle.isPrefixOf t)

theorem jsIncludes_correct (hay needle : Str) :
    jsIncludes hay needle = true ↔ needle <:+: hay := by
  rw [jsIncludes, List.any_eq_true]
  constructor
  · rintro ⟨t, ht, hpre⟩
    rw [List.mem_tails] at ht
    rw [List.isPrefixOf_iff_prefix] at hpre
    exact List.infix_iff_prefix_suffix.mpr ⟨t, hpre, ht⟩
  · intro hinf
    obtain ⟨t, hpre, hsuf⟩ := List.infix_iff_prefix_suffix.mp hinf
    exact ⟨t, (List.mem_tails t hay).mpr hsuf,
      List.isPrefixOf_iff_prefix.mpr hpre⟩

/-- The `{ok, message}` value returned by `OllamaEmbedder.healthCheck`. -/
structure HealthStatus where
  ok : Bool
  message : Str
deriving DecidableEq

namespace OllamaEmbedder

/-- `OllamaEmbedder.healthCheck` (src/unnamed/part_004 lines 75-98).  The
`GET {baseUrl}/api/tags` call is abstracted into its outcome: `Except.error`
carries the message of the error thrown on an unreachable or failing oracle,
`Except.ok` the `name` fields of the listed models (`response.data.models`).
The match `models.some(m => m.name.includes(this.model))` is a substring
test. -/
def healthCheck (model : Str) (resp : Except Str (List Str)) : HealthStatus :=
  match resp with
  | Except.error emsg =>
    ⟨false, ("Ollama not running: ").toList ++ emsg⟩
  | Except.ok names =>
    if names.any (fun n => jsIncludes n model) then
      ⟨true, ("Ollama ready with ").toList ++ model⟩
    else
      ⟨false, ("Model '").toList ++ model ++
        ("' not found. Run: ollama pull ").toList ++ model⟩

end OllamaEmbedder

/-- Counterexample to claim C8 as stated: with the configured model name
`abc` and an oracle listing consisting of the single name `zabcz`, the
configured model is absent from the listing, yet `healthCheck` reports
`ok = true`, because the source matches with `m.name.includes(this.model)`
— a substring test — rather than listing membership. -/
theorem healthCheck_substring_counterexample :
    (OllamaEmbedder.healthCheck ['a', 'b', 'c']
      (Except.ok [['z', 'a', 'b', 'c', 'z']])).ok = true ∧
    ['a', 'b', 'c'] ∉ [['z', 'a', 'b', 'c', 'z']] := by
  decide

/-- Claim C8 (corrected): `healthCheck` returns `ok = true` iff the oracle's
model listing was obtained and the configured model name occurs as a
substring of some listed model name; when the listing is reachable but no
listed name contains the configured name, it returns `ok = false` with the
remediation message naming `ollama pull`. -/
theorem healthCheck_ok_iff (model : Str) (resp : Except Str (List Str)) :
    ((OllamaEmbedder.healthCheck model resp).ok = true ↔
      ∃ names, resp = Except.ok names ∧ ∃ n ∈ names, model <:+: n) ∧
    (∀ names, resp = Except.ok names → (∀ n ∈ names, ¬ model <:+: n) →
      OllamaEmbedder.healthCheck model resp =
        ⟨false, ("Model '").toList ++ model ++
          ("' not found. Run: ollama pull ").toList ++ model⟩) := by
  constructor
  · cases resp with
    | error emsg =>
      simp [OllamaEmbedder.healthCheck]
    | ok names =>
      show (if names.any (fun n => jsIncludes n model) = true
          then (⟨true, ("Ollama ready with ").toList ++ model⟩ : HealthStatus)
          else ⟨false, ("Model '").toList ++ model ++
            ("' not found. Run: ollama pull ").toList ++ model⟩).ok = true ↔ _
      by_cases hmatch : names.any (fun n => jsIncludes n model) = true
      · rw [if_pos hmatch]
        obtain ⟨n, hn, hinc⟩ := List.any_eq_true.mp hmatch
        constructor
        · intro _
          exact ⟨names, rfl, n, hn, (jsIncludes_correct n model).mp hinc⟩
        · intro _
          rfl
      · rw [if_neg hmatch]
        constructor
        · intro hfalse
          cases hfalse
        · rintro ⟨names', heq, n, hn, hinf⟩
          cases heq
          exact absurd (List.any_eq_true.mpr
            ⟨n, hn, (jsIncludes_correct n model).mpr hinf⟩) hmatch
  · rintro names rfl hnone
    have hmatch : ¬ names.any (fun n => jsIncludes n model) = true := by
      intro hany
      obtain ⟨n, hn, hinc⟩ := List.any_eq_true.mp hany
      exact hnone n hn ((jsIncludes_correct n model).mp hinc)
    show (if names.any (fun n => jsIncludes n model) = true
        then (⟨true, ("Ollama ready with ").toList ++ model⟩ : HealthStatus)
        else ⟨false, ("Model '").toList ++ model ++
          ("' not found. Run: ollama pull ").toList ++ model⟩) = _
    rw [if_neg hmatch]

/-- Witness for C8 on concrete inputs: a reachable oracle whose single listed
name does not contain the configured name yields the remediation failure. -/
theorem healthCheck_ok_iff_witness :
    ((OllamaEmbedder.healthCheck ['a', 'b'] (Except.ok [['x', 'y']])).ok = true ↔
      ∃ names, (Except.ok [['x', 'y']] : Except Str (List Str)) =
        Except.ok names ∧ ∃ n ∈ names, ['a', 'b'] <:+: n) ∧
    OllamaEmbedder.healthCheck ['a', 'b'] (Except.ok [['x', 'y']]) =
      ⟨false, ("Model '").toList ++ ['a', 'b'] ++
        ("' not found. Run: ollama pull ").toList ++ ['a', 'b']⟩ :=
  ⟨(healthCheck_ok_iff ['a', 'b'] (Except.ok [['x', 'y']])).1,
   (healthCheck_ok_iff ['a', 'b'] (Except.ok [['x', 'y']])).2
     [['x', 'y']] rfl (by decide)⟩

/-- A filesystem path as the list of its components, as produced by
`path.join` along a scan. -/
abbrev FsPath := List Str

/-- `path.basename`: the last path component. -/
def basenameOf (p : FsPath) : Str := p.getLastD []

/-- `existingCache[key]` on the JSON cache object, modelled as an
association list with the object's key order. -/
def cacheLookup (cache : List (Str × Str)) (k : Str) : Option Str :=
  (cache.find? (fun e => e.1 == k)).map Prod.snd

/-- Truthiness of `existingCache[key]`: absent (`undefined`) and the empty
string are the falsy cases for a string-valued JSON object. -/
def jsFalsy : Option Str → Bool
  | none => true
  | some v => v.isEmpty

/-- The `{added, modified, removed, unchanged}` object built by
`detectChanges`. -/
structure ChangeResult where
  added : List Str
  modified : List Str
  removed : List Str
  unchanged : List Str
deriving DecidableEq

namespace DocCache

/-- The `for (const filePath of files)` loop of `detectChanges`
(src/unnamed/part_003 lines 92-105).  `hashOf` abstracts `getFileHash`,
i.e. the MD5 digest of the file's current content. -/
def detectLoop (hashOf : FsPath → Str) (cache : List (Str × Str)) :
    List FsPath → ChangeResult → ChangeResult
  | [], res => res
  | p :: rest, res =>
    let key := basenameOf p
    let h := hashOf p
    let v := cacheLookup cache key
    if jsFalsy v then
      detectLoop hashOf cache rest { res with added := res.added ++ [key] }
    else if v ≠ some h then
      detectLoop hashOf cache rest { res with modified := res.modified ++ [key] }
    else
      detectLoop hashOf cache rest { res with unchanged := res.unchanged ++ [key] }

/-- `detectChanges(dirPath, existingCache, options)` after the directory
scan produced `files`: run the classification loop, then collect the
`removed` keys — cache keys whose basename was not seen in the scan. -/
def detectChanges (hashOf : FsPath → Str) (cache : List (Str × Str))
    (files : List FsPath) : ChangeResult :=
  let res := detectLoop hashOf cache files ⟨[], [], [], []⟩
  { res with removed :=
      ((cache.map Prod.fst).filter
        (fun k => !((files.map basenameOf).contains k))) }

theorem detectLoop_eq (hashOf : FsPath → Str) (cache : List (Str × Str)) :
    ∀ (files : List FsPath) (res : ChangeResult),
    detectLoop hashOf cache files res =
      { added := res.added ++
          (files.filter
            (fun p => jsFalsy (cacheLookup cache (basenameOf p)))).map basenameOf
        modified := res.modified ++
          (files.filter (fun p =>
            !jsFalsy (cacheLookup cache (basenameOf p)) &&
              cacheLookup cache (basenameOf p) != some (hashOf p))).map basenameOf
        removed := res.removed
        unchanged := res.unchanged ++
          (files.filter (fun p =>
            !jsFalsy (cacheLookup cache (basenameOf p)) &&
              cacheLookup cache (basenameOf p) == some (hashOf p))).map basenameOf }
  | [], res => by simp [detectLoop]
  | p :: rest, res => by
    by_cases h1 : jsFalsy (cacheLookup cache (basenameOf p)) = true
    · rw [detectLoop, if_pos h1, detectLoop_eq hashOf cache rest]
      simp [List.filter_cons, h1]
    · have h1b : jsFalsy (cacheLookup cache (basenameOf p)) = false := by
        simpa using h1
      by_cases h2 : cacheLookup cache (basenameOf p) = some (hashOf p)
      · have h2b : (cacheLookup cache (basenameOf p) ==
            some (hashOf p)) = true := by simp [h2]
        rw [detectLoop, if_neg h1, if_neg (by simpa using h2),
          detectLoop_eq hashOf cache rest]
        simp [List.filter_cons, h1b, h2b, bne]
      · have h2b : (cacheLookup cache (basenameOf p) ==
            some (hashOf p)) = false := by simp [h2]
        rw [detectLoop, if_neg h1, if_pos (by simpa using h2),
          detectLoop_eq hashOf cache rest]
        simp [List.filter_cons, h1b, h2b, bne]

end DocCache

/-- Counterexample to claim C4 as stated: under a recursive scan, two files
`s1/a` and `s2/a` share the basename `a`; with the cache holding the digest
of the first, the key `a` lands in both `modified` and `unchanged`, so the
four sets are not pairwise disjoint. -/
theorem detectChanges_disjoint_counterexample :
    DocCache.detectChanges
      (fun p => if p = [['s', '1'], ['a']] then ['h', '1'] else ['h', '2'])
      [(['a'], ['h', '1'])]
      [[['s', '1'], ['a']], [['s', '2'], ['a']]] =
      ⟨[], [['a']], [], [['a']]⟩ ∧
    ['a'] ∈ (DocCache.detectChanges
      (fun p => if p = [['s', '1'], ['a']] then ['h', '1'] else ['h', '2'])
      [(['a'], ['h', '1'])]
      [[['s', '1'], ['a']], [['s', '2'], ['a']]]).modified ∧
    ['a'] ∈ (DocCache.detectChanges
      (fun p => if p = [['s', '1'], ['a']] then ['h', '1'] else ['h', '2'])
      [(['a'], ['h', '1'])]
      [[['s', '1'], ['a']], [['s', '2'], ['a']]]).unchanged := by
  decide

theorem detectChanges_eq (hashOf : FsPath → Str) (cache : List (Str × Str))
    (files : List FsPath) :
    DocCache.detectChanges hashOf cache files =
      { added := (files.filter
          (fun p => jsFalsy (cacheLookup cache (basenameOf p)))).map basenameOf
        modified := (files.filter (fun p =>
          !jsFalsy (cacheLookup cache (basenameOf p)) &&
            cacheLookup cache (basenameOf p) != some (hashOf p))).map basenameOf
        removed := ((cache.map Prod.fst).filter
          (fun k => !((files.map basenameOf).contains k)))
        unchanged := (files.filter (fun p =>
          !jsFalsy (cacheLookup cache (basenameOf p)) &&
            cacheLookup cache (basenameOf p) == some (hashOf p))).map basenameOf } := by
  simp only [DocCache.detectChanges]
  rw [DocCache.detectLoop_eq]
  rfl

/-- Claim C4 (corrected): the four sets returned by `detectChanges` always
cover exactly the union of current basenames and previous-cache keys, and
`removed` is disjoint from the other three; but `added`, `modified` and
`unchanged` are pairwise disjoint only when no two scanned files share a
basename — with a shared basename under a recursive scan one key can land in
two of them. -/
theorem detectChanges_partition (hashOf : FsPath → Str)
    (cache : List (Str × Str)) (files : List FsPath) :
    (∀ k, (k ∈ (DocCache.detectChanges hashOf cache files).added ∨
        k ∈ (DocCache.detectChanges hashOf cache files).modified ∨
        k ∈ (DocCache.detectChanges hashOf cache files).unchanged ∨
        k ∈ (DocCache.detectChanges hashOf cache files).removed) ↔
      (k ∈ files.map basenameOf ∨ k ∈ cache.map Prod.fst)) ∧
    (∀ k, k ∈ (DocCache.detectChanges hashOf cache files).removed →
      k ∉ (DocCache.detectChanges hashOf cache files).added ∧
      k ∉ (DocCache.detectChanges hashOf cache files).modified ∧
      k ∉ (DocCache.detectChanges hashOf cache files).unchanged) ∧
    ((files.map basenameOf).Nodup → ∀ k,
      (k ∈ (DocCache.detectChanges hashOf cache files).added →
        k ∉ (DocCache.detectChanges hashOf cache files).modified ∧
        k ∉ (DocCache.detectChanges hashOf cache files).unchanged) ∧
      (k ∈ (DocCache.detectChanges hashOf cache files).modified →
        k ∉ (DocCache.detectChanges hashOf cache files).unchanged)) := by
  rw [detectChanges_eq]
  have htri : ∀ p : FsPath,
      jsFalsy (cacheLookup cache (basenameOf p)) = true ∨
      (!jsFalsy (cacheLookup cache (basenameOf p)) &&
        cacheLookup cache (basenameOf p) != some (hashOf p)) = true ∨
      (!jsFalsy (cacheLookup cache (basenameOf p)) &&
        cacheLookup cache (basenameOf p) == some (hashOf p)) = true := by
    intro p
    cases hf : jsFalsy (cacheLookup cache (basenameOf p))
    · cases he : cacheLookup cache (basenameOf p) == some (hashOf p)
      · right; left; simp [hf, he, bne]
      · right; right; simp [hf, he]
    · left; rfl
  have hmemscan : ∀ (k : Str) (q : FsPath → Bool),
      k ∈ (files.filter q).map basenameOf → k ∈ files.map basenameOf := by
    intro k q hk
    obtain ⟨p, hp, rfl⟩ := List.mem_map.mp hk
    exact List.mem_map_of_mem basenameOf (List.mem_filter.mp hp).1
  have hrem : ∀ k : Str,
      k ∈ ((cache.map Prod.fst).filter
        (fun k => !((files.map basenameOf).contains k))) ↔
      (k ∈ cache.map Prod.fst ∧ k ∉ files.map basenameOf) := by
    intro k
    simp [List.mem_filter]
  refine ⟨?_, ?_, ?_⟩
  · intro k
    constructor
    · rintro (hk | hk | hk | hk)
      · exact Or.inl (hmemscan k _ hk)
      · exact Or.inl (hmemscan k _ hk)
      · exact Or.inl (hmemscan k _ hk)
      · exact Or.inr ((hrem k).mp hk).1
    · rintro (hk | hk)
      · obtain ⟨p, hp, rfl⟩ := List.mem_map.mp hk
        rcases htri p with h | h | h
        · exact Or.inl (List.mem_map_of_mem basenameOf
            (List.mem_filter.mpr ⟨hp, h⟩))
        · exact Or.inr (Or.inl (List.mem_map_of_mem basenameOf
            (List.mem_filter.mpr ⟨hp, h⟩)))
        · exact Or.inr (Or.inr (Or.inl (List.mem_map_of_mem basenameOf
            (List.mem_filter.mpr ⟨hp, h⟩))))
      · by_cases hscan : k ∈ files.map basenameOf
        · rcases List.mem_map.mp hscan with ⟨p, hp, rfl⟩
          rcases htri p with h | h | h
          · exact Or.inl (List.mem_map_of_mem basenameOf
              (List.mem_filter.mpr ⟨hp, h⟩))
          · exact Or.inr (Or.inl (List.mem_map_of_mem basenameOf
              (List.mem_filter.mpr ⟨hp, h⟩)))
          · exact Or.inr (Or.inr (Or.inl (List.mem_map_of_mem basenameOf
              (List.mem_filter.mpr ⟨hp, h⟩))))
        · exact Or.inr (Or.inr (Or.inr ((hrem k).mpr ⟨hk, hscan⟩)))
  · intro k hk
    have hnotscan := ((hrem k).mp hk).2
    exact ⟨fun h => hnotscan (hmemscan k _ h),
      fun h => hnotscan (hmemscan k _ h),
      fun h => hnotscan (hmemscan k _ h)⟩
  · intro hnodup k
    have hfiles : files.Nodup := List.Nodup.of_map basenameOf hnodup
    have hinj := (List.nodup_map_iff_inj_on hfiles).mp hnodup
    have hexclusive : ∀ (q r : FsPath → Bool),
        (∀ p, ¬ (q p = true ∧ r p = true)) →
        k ∈ (files.filter q).map basenameOf →
        k ∉ (files.filter r).map basenameOf := by
      intro q r hqr hkq hkr
      obtain ⟨p1, hp1, hb1⟩ := List.mem_map.mp hkq
      obtain ⟨p2, hp2, hb2⟩ := List.mem_map.mp hkr
      obtain ⟨hp1f, hq1⟩ := List.mem_filter.mp hp1
      obtain ⟨hp2f, hr2⟩ := List.mem_filter.mp hp2
      have : p1 = p2 := hinj p1 hp1f p2 hp2f (hb1.trans hb2.symm)
      subst this
      exact hqr p1 ⟨hq1, hr2⟩
    refine ⟨fun hk => ⟨?_, ?_⟩, fun hk => ?_⟩
    · refine hexclusive _ _ ?_ hk
      intro p hp
      simp only [Bool.and_eq_true, Bool.not_eq_eq_eq_not, Bool.not_true] at hp
      rcases hp with ⟨h1, h2, _⟩
      rw [h1] at h2
      cases h2
    · refine hexclusive _ _ ?_ hk
      intro p hp
      simp only [Bool.and_eq_true, Bool.not_eq_eq_eq_not, Bool.not_true] at hp
      rcases hp with ⟨h1, h2, _⟩
      rw [h1] at h2
      cases h2
    · refine hexclusive _ _ ?_ hk
      intro p hp
      simp only [Bool.and_eq_true, bne] at hp
      rcases hp with ⟨⟨_, h2⟩, _, h4⟩
      rw [h4] at h2
      cases h2

/-- Witness for C4 on a concrete scan: one current file `a` and one stale
cache key `b`; the stale key is in no current-file set, and the added key is
in neither `modified` nor `unchanged`. -/
theorem detectChanges_partition_witness :
    (['b'] ∉ (DocCache.detectChanges (fun _ => ['h'])
        [(['b'], ['x'])] [[['a']]]).added ∧
      ['b'] ∉ (DocCache.detectChanges (fun _ => ['h'])
        [(['b'], ['x'])] [[['a']]]).modified ∧
      ['b'] ∉ (DocCache.detectChanges (fun _ => ['h'])
        [(['b'], ['x'])] [[['a']]]).unchanged) ∧
    (['a'] ∉ (DocCache.detectChanges (fun _ => ['h'])
        [(['b'], ['x'])] [[['a']]]).modified ∧
      ['a'] ∉ (DocCache.detectChanges (fun _ => ['h'])
        [(['b'], ['x'])] [[['a']]]).unchanged) :=
  ⟨(detectChanges_partition (fun _ => ['h']) [(['b'], ['x'])] [[['a']]]).2.1
      ['b'] (by decide),
   ((detectChanges_partition (fun _ => ['h']) [(['b'], ['x'])] [[['a']]]).2.2
      (by decide) ['a']).1 (by decide)⟩

/-- `relativePath.replace(/[\/\\]/g, "_")`: forward and backward slashes
become underscores. -/
def sanitizeSlashes (s : Str) : Str :=
  s.map (fun c => if c == '/' || c == '\\' then '_' else c)

/-- `.replace(/\.[^/.]+$/, "")`: drop a trailing `.xyz` segment when `xyz`
is nonempty and free of dots and slashes; otherwise leave the string as is. -/
def stripExtension (s : Str) : Str :=
  let rev := s.reverse
  let seg := rev.takeWhile (fun c => !(c == '.' || c == '/'))
  match seg, rev.dropWhile (fun c => !(c == '.' || c == '/')) with
  | [], _ => s
  | _ :: _, '.' :: restRev => restRev.reverse
  | _ :: _, _ => s

/-- Decimal rendering of the chunk sequence index interpolated by
`${baseId}_${i}`. -/
def natToStr (n : Nat) : Str := (Nat.repr n).toList

/-- The derived chunk identifier for chunk `i` of the file at `relPath`:
sanitized relative path with its extension stripped, then `_` and the
sequence index. -/
def deriveChunkId (relPath : Str) (i : Nat) : Str :=
  stripExtension (sanitizeSlashes relPath) ++ ('_' :: natToStr i)

/-- The metadata items one file contributes: its chunk list (as produced by
the external `splitTextByFileType`) with derived identifiers, in chunk
order. -/
def fileItems (relPath : Str) (chunks : List Str) : List MetaItem :=
  (List.enumFrom 0 chunks).map
    (fun p => ⟨relPath, deriveChunkId relPath p.1, p.2⟩)

namespace PublicApi

/-- The metadata-assembly loop of the library entry point `build`
(src/unnamed/part_002 lines 119-140): every file's chunks are appended with
their derived identifiers, with no duplicate-identifier check anywhere. -/
def buildMetadata : List (Str × List Str) → List MetaItem
  | [] => []
  | f :: rest => fileItems f.1 f.2 ++ buildMetadata rest

end PublicApi

namespace Cli

/-- The inner `for (let i = 0; i < chunks.length; i++)` loop of the CLI
`runBuild` (src/lib/textSplitter.js lines 827-847): derive each identifier,
exit on a duplicate (`process.exit(1)` becomes `Except.error` carrying the
duplicate), otherwise record it in the `chunkIds` set (modelled as the list
of identifiers in insertion order) and push the metadata item. -/
def chunkLoop (relPath : Str) :
    List (Nat × Str) → List Str → List MetaItem →
    Except Str (List Str × List MetaItem)
  | [], seen, acc => Except.ok (seen, acc)
  | (i, c) :: rest, seen, acc =>
    let cid := deriveChunkId relPath i
    if seen.contains cid then Except.error cid
    else chunkLoop relPath rest (seen ++ [cid]) (acc ++ [⟨relPath, cid, c⟩])

/-- The outer `for (const filePath of files)` loop of the CLI `runBuild`
metadata step. -/
def fileLoop : List (Str × List Str) → List Str → List MetaItem →
    Except Str (List MetaItem)
  | [], _, acc => Except.ok acc
  | f :: rest, seen, acc =>
    match chunkLoop f.1 (List.enumFrom 0 f.2) seen acc with
    | Except.error e => Except.error e
    | Except.ok (seen', acc') => fileLoop rest seen' acc'

/-- The CLI `runBuild` metadata assembly over the scanned files (each paired
with its chunk list). -/
def runBuildMetadata (files : List (Str × List Str)) :
    Except Str (List MetaItem) :=
  fileLoop files [] []

theorem chunkLoop_spec (rel : Str) :
    ∀ (pcs : List (Nat × Str)) (seen : List Str) (acc : List MetaItem),
    ((seen ++ pcs.map (fun p => deriveChunkId rel p.1)).Nodup →
      chunkLoop rel pcs seen acc =
        Except.ok (seen ++ pcs.map (fun p => deriveChunkId rel p.1),
          acc ++ pcs.map (fun p => ⟨rel, deriveChunkId rel p.1, p.2⟩))) ∧
    (seen.Nodup →
      ¬ (seen ++ pcs.map (fun p => deriveChunkId rel p.1)).Nodup →
      ∃ e, chunkLoop rel pcs seen acc = Except.error e)
  | [], seen, acc => by
    constructor
    · intro _
      simp [chunkLoop]
    · intro hseen hbad
      exact absurd (by simpa using hseen) hbad
  | (i, c) :: rest, seen, acc => by
    constructor
    · intro hnodup
      have hnotin : deriveChunkId rel i ∉ seen := by
        rcases List.nodup_append.mp (by simpa using hnodup) with ⟨_, _, hdisj⟩
        exact fun hmem => hdisj hmem (List.mem_cons_self _ _)
      have hcon : seen.contains (deriveChunkId rel i) = false := by
        simpa using hnotin
      rw [chunkLoop]
      simp only [hcon, Bool.false_eq_true, if_false]
      have hrec := (chunkLoop_spec rel rest (seen ++ [deriveChunkId rel i])
        (acc ++ [⟨rel, deriveChunkId rel i, c⟩])).1
        (by simpa [List.append_assoc] using hnodup)
      rw [hrec]
      simp [List.append_assoc]
    · intro hseen hbad
      by_cases hcon : seen.contains (deriveChunkId rel i) = true
      · exact ⟨deriveChunkId rel i, by rw [chunkLoop, if_pos hcon]⟩
      · have hcon' : seen.contains (deriveChunkId rel i) = false := by
          simpa using hcon
        have hnotin : deriveChunkId rel i ∉ seen := by simpa using hcon'
        have hseen' : (seen ++ [deriveChunkId rel i]).Nodup := by
          rw [List.nodup_append]
          refine ⟨hseen, List.nodup_singleton _, ?_⟩
          intro x hx hx'
          rcases List.mem_singleton.mp hx' with rfl
          exact hnotin hx
        have hbad' : ¬ ((seen ++ [deriveChunkId rel i]) ++
            rest.map (fun p => deriveChunkId rel p.1)).Nodup := by
          intro h
          exact hbad (by simpa [List.append_assoc] using h)
        obtain ⟨e, he⟩ := (chunkLoop_spec rel rest (seen ++ [deriveChunkId rel i])
          (acc ++ [⟨rel, deriveChunkId rel i, c⟩])).2 hseen' hbad'
        refine ⟨e, ?_⟩
        rw [chunkLoop, if_neg hcon]
        exact he

theorem fileLoop_spec :
    ∀ (files : List (Str × List Str)) (seen : List Str) (acc : List MetaItem),
    ((seen ++ (PublicApi.buildMetadata files).map MetaItem.chunk_id).Nodup →
      fileLoop files seen acc =
        Except.ok (acc ++ PublicApi.buildMetadata files)) ∧
    (seen.Nodup →
      ¬ (seen ++ (PublicApi.buildMetadata files).map MetaItem.chunk_id).Nodup →
      ∃ e, fileLoop files seen acc = Except.error e)
  | [], seen, acc => by
    constructor
    · intro _
      simp [fileLoop, PublicApi.buildMetadata]
    · intro hseen hbad
      exact absurd (by simpa [PublicApi.buildMetadata] using hseen) hbad
  | f :: rest, seen, acc => by
    have hids : (PublicApi.buildMetadata (f :: rest)).map MetaItem.chunk_id =
        (List.enumFrom 0 f.2).map (fun p => deriveChunkId f.1 p.1) ++
          (PublicApi.buildMetadata rest).map MetaItem.chunk_id := by
      simp [PublicApi.buildMetadata, fileItems, List.map_map, Function.comp]
    have hitems : fileItems f.1 f.2 =
        (List.enumFrom 0 f.2).map
          (fun p => (⟨f.1, deriveChunkId f.1 p.1, p.2⟩ : MetaItem)) := rfl
    constructor
    · intro hnodup
      rw [hids] at hnodup
      have hfront : (seen ++
          (List.enumFrom 0 f.2).map (fun p => deriveChunkId f.1 p.1)).Nodup := by
        have := hnodup
        rw [← List.append_assoc] at this
        exact (List.nodup_append.mp this).1
      have hchunk := (chunkLoop_spec f.1 (List.enumFrom 0 f.2) seen acc).1 hfront
      have hrec := (fileLoop_spec rest
        (seen ++ (List.enumFrom 0 f.2).map (fun p => deriveChunkId f.1 p.1))
        (acc ++ (List.enumFrom 0 f.2).map
          (fun p => (⟨f.1, deriveChunkId f.1 p.1, p.2⟩ : MetaItem)))).1
        (by simpa [List.append_assoc] using hnodup)
      rw [fileLoop, hchunk]
      show fileLoop rest
          (seen ++ (List.enumFrom 0 f.2).map (fun p => deriveChunkId f.1 p.1))
          (acc ++ (List.enumFrom 0 f.2).map
            (fun p => (⟨f.1, deriveChunkId f.1 p.1, p.2⟩ : MetaItem))) = _
      rw [hrec]
      simp [PublicApi.buildMetadata, hitems, List.append_assoc]
    · intro hseen hbad
      rw [hids] at hbad
      by_cases hfront : (seen ++
          (List.enumFrom 0 f.2).map (fun p => deriveChunkId f.1 p.1)).Nodup
      · have hchunk := (chunkLoop_spec f.1 (List.enumFrom 0 f.2) seen acc).1 hfront
        have hbad' : ¬ ((seen ++
            (List.enumFrom 0 f.2).map (fun p => deriveChunkId f.1 p.1)) ++
            (PublicApi.buildMetadata rest).map MetaItem.chunk_id).Nodup := by
          intro h
          exact hbad (by simpa [List.append_assoc] using h)
        obtain ⟨e, he⟩ := (fileLoop_spec rest
          (seen ++ (List.enumFrom 0 f.2).map (fun p => deriveChunkId f.1 p.1))
          (acc ++ (List.enumFrom 0 f.2).map
            (fun p => (⟨f.1, deriveChunkId f.1 p.1, p.2⟩ : MetaItem)))).2
          hfront hbad'
        refine ⟨e, ?_⟩
        rw [fileLoop, hchunk]
        show fileLoop rest
            (seen ++ (List.enumFrom 0 f.2).map (fun p => deriveChunkId f.1 p.1))
            (acc ++ (List.enumFrom 0 f.2).map
              (fun p => (⟨f.1, deriveChunkId f.1 p.1, p.2⟩ : MetaItem))) = _
        exact he
      · obtain ⟨e, he⟩ := (chunkLoop_spec f.1 (List.enumFrom 0 f.2) seen acc).2
          hseen hfront
        refine ⟨e, ?_⟩
        rw [fileLoop, he]

end Cli

/-- Counterexample to claim C5 as stated: the files `a/b.txt` and `a_b.md`
derive the same identifier `a_b_0`, yet the library entry point `build`
aggregates and hands on the duplicated sequence without any failure, while
the CLI entry point fails fast on the same input. -/
theorem library_build_no_duplicate_check :
    (PublicApi.buildMetadata
      [(['a', '/', 'b', '.', 't', 'x', 't'], [['x']]),
       (['a', '_', 'b', '.', 'm', 'd'], [['y']])]).map MetaItem.chunk_id =
      [['a', '_', 'b', '_', '0'], ['a', '_', 'b', '_', '0']] ∧
    ¬ ((PublicApi.buildMetadata
      [(['a', '/', 'b', '.', 't', 'x', 't'], [['x']]),
       (['a', '_', 'b', '.', 'm', 'd'], [['y']])]).map MetaItem.chunk_id).Nodup ∧
    Cli.runBuildMetadata
      [(['a', '/', 'b', '.', 't', 'x', 't'], [['x']]),
       (['a', '_', 'b', '.', 'm', 'd'], [['y']])] =
      Except.error ['a', '_', 'b', '_', '0'] :=
  ⟨by decide, by decide, by rfl⟩

/-- Claim C5 (corrected): only the CLI entry point checks for duplicate
derived identifiers: `runBuild` fails fast (before anything reaches the
index build) exactly when some derived identifier repeats, and otherwise
returns precisely the aggregated metadata sequence; the library entry point
`build` performs no duplicate check and passes a sequence with repeated
identifiers straight to the index build. -/
theorem cli_fails_fast_iff_duplicate (files : List (Str × List Str)) :
    (Cli.runBuildMetadata files = Except.ok (PublicApi.buildMetadata files) ↔
      ((PublicApi.buildMetadata files).map MetaItem.chunk_id).Nodup) ∧
    ((∃ e, Cli.runBuildMetadata files = Except.error e) ↔
      ¬ ((PublicApi.buildMetadata files).map MetaItem.chunk_id).Nodup) := by
  by_cases hdup : ((PublicApi.buildMetadata files).map MetaItem.chunk_id).Nodup
  · have hok := (Cli.fileLoop_spec files [] []).1 (by simpa using hdup)
    rw [Cli.runBuildMetadata]
    constructor
    · simp [hok, hdup]
    · constructor
      · rintro ⟨e, he⟩
        rw [hok] at he
        cases he
      · intro h
        exact absurd hdup h
  · obtain ⟨e, he⟩ := (Cli.fileLoop_spec files [] []).2 List.nodup_nil
      (by simpa using hdup)
    rw [Cli.runBuildMetadata]
    constructor
    · constructor
      · intro h
        rw [he] at h
        cases h
      · intro h
        exact absurd h hdup
    · exact ⟨fun _ => hdup, fun _ => ⟨e, he⟩⟩

/-- One result object pushed by `FaissIndexer.search`.  The `doc`,
`chunk_id` and `chunk` fields read `meta.doc` etc. off
`this.metadata[idx] || { id: idx }`, so they are `undefined` (`none`) when
the ordinal has no metadata entry. -/
structure SearchResult (σ : Type) where
  id : Int
  score : σ
  doc : Option Str
  chunk_id : Option Str
  chunk : Option Str
deriving DecidableEq

/-- `this.metadata[idx]` for an engine-reported ordinal: `undefined` when
`idx` is negative or past the end. -/
def metadataAt (meta : List IndexEntry) (idx : Int) : Option IndexEntry :=
  if h : 0 ≤ idx ∧ idx.toNat < meta.length then
    some (meta.get ⟨idx.toNat, h.2⟩)
  else none

namespace FaissIndexer

/-- The result-collection loop of `FaissIndexer.search`
(src/unnamed/part_005 lines 184-197) over the engine's paired
`(labels[i], distances[i])` output: a `-1` label (the engine's "no match"
sentinel) is dropped, every other label is mapped through the metadata
sequence (falling back to `{id: idx}` when no entry exists). -/
def collectResults {σ : Type} (meta : List IndexEntry) :
    List (Int × σ) → List (SearchResult σ)
  | [] => []
  | (idx, s) :: rest =>
    if idx = -1 then collectResults meta rest
    else
      { id := idx
        score := s
        doc := (metadataAt meta idx).map IndexEntry.doc
        chunk_id := (metadataAt meta idx).map IndexEntry.chunk_id
        chunk := (metadataAt meta idx).map IndexEntry.chunk } ::
        collectResults meta rest

/-- `FaissIndexer.search(query, k)`.  `embedNorm` is the embed-then-normalize
query pipeline, `engine` the external faiss `index.search`, called on the
query vector and `Math.min(k, this.index.ntotal())` and returning the paired
label/distance lists; `n` is `this.index.ntotal()`.  An empty or unloaded
index throws. -/
def search {α σ : Type} (embedNorm : Str → α)
    (engine : α → Nat → List (Int × σ)) (n : Nat) (meta : List IndexEntry)
    (query : Str) (k : Nat) : Except Str (List (SearchResult σ)) :=
  if n = 0 then Except.error ("Index is empty or not loaded").toList
  else Except.ok (collectResults meta (engine (embedNorm query) (min k n)))

theorem collectResults_eq_map {σ : Type} (meta : List IndexEntry) :
    ∀ engineOut : List (Int × σ),
    (∀ p ∈ engineOut, 0 ≤ p.1 ∧ p.1.toNat < meta.length) →
    collectResults meta engineOut = engineOut.map (fun p =>
      { id := p.1
        score := p.2
        doc := (metadataAt meta p.1).map IndexEntry.doc
        chunk_id := (metadataAt meta p.1).map IndexEntry.chunk_id
        chunk := (metadataAt meta p.1).map IndexEntry.chunk })
  | [] => fun _ => rfl
  | (idx, s) :: rest => by
    intro hvalid
    have hhead := hvalid (idx, s) (List.mem_cons_self _ _)
    have hne : ¬ idx = -1 := by
      intro h
      rw [h] at hhead
      omega
    rw [collectResults, if_neg hne,
      collectResults_eq_map meta rest
        (fun p hp => hvalid p (List.mem_cons_of_mem _ hp))]
    rfl

end FaissIndexer

/-- Claim C3 (confirmed): on a loaded index with `n ≥ 1` vectors and aligned
metadata, whenever the external engine honors its contract — returning
exactly the requested `min(k, n)` neighbor pairs, with valid ordinals,
ordered best score first — `search(query, k)` succeeds with exactly
`min(k, n)` results, in best-score-first order, each mapping its ordinal id
back to the document path, chunk identifier and chunk text stored at that
ordinal of the metadata sequence. -/
theorem search_result_contract {α σ : Type} [LinearOrder σ]
    (embedNorm : Str → α) (engine : α → Nat → List (Int × σ))
    (n : Nat) (meta : List IndexEntry) (query : Str) (k : Nat)
    (hn : 1 ≤ n) (hmeta : meta.length = n)
    (hlen : (engine (embedNorm query) (min k n)).length = min k n)
    (hvalid : ∀ p ∈ engine (embedNorm query) (min k n),
      0 ≤ p.1 ∧ p.1.toNat < n)
    (hsorted : List.Pairwise (fun a b => b.2 ≤ a.2)
      (engine (embedNorm query) (min k n))) :
    ∃ results,
      FaissIndexer.search embedNorm engine n meta query k =
        Except.ok results ∧
      results.length = min k n ∧
      List.Pairwise (fun a b => b.score ≤ a.score) results ∧
      ∀ r ∈ results, ∃ h : r.id.toNat < meta.length,
        r.doc = some (meta.get ⟨r.id.toNat, h⟩).doc ∧
        r.chunk_id = some (meta.get ⟨r.id.toNat, h⟩).chunk_id ∧
        r.chunk = some (meta.get ⟨r.id.toNat, h⟩).chunk := by
  have hvalid' : ∀ p ∈ engine (embedNorm query) (min k n),
      0 ≤ p.1 ∧ p.1.toNat < meta.length := by
    intro p hp
    rw [hmeta]
    exact hvalid p hp
  have hmap := FaissIndexer.collectResults_eq_map meta
    (engine (embedNorm query) (min k n)) hvalid'
  refine ⟨FaissIndexer.collectResults meta
    (engine (embedNorm query) (min k n)), ?_, ?_, ?_, ?_⟩
  · rw [FaissIndexer.search, if_neg (by omega)]
  · rw [hmap, List.length_map, hlen]
  · rw [hmap, List.pairwise_map]
    exact hsorted
  · intro r hr
    rw [hmap] at hr
    obtain ⟨p, hp, rfl⟩ := List.mem_map.mp hr
    obtain ⟨hp0, hplt⟩ := hvalid' p hp
    have hat : metadataAt meta p.1 = some (meta.get ⟨p.1.toNat, hplt⟩) := by
      rw [metadataAt, dif_pos ⟨hp0, hplt⟩]
    exact ⟨hplt, by rw [hat]; rfl, by rw [hat]; rfl, by rw [hat]; rfl⟩

/-- Witness for C3: a two-vector index queried with `k = 5` through a
concrete engine output listing the two ordinals in best-first order. -/
theorem search_result_contract_witness :
    ∃ results,
      FaissIndexer.search (fun (s : Str) => s.length)
        (fun _ _ => [((1 : Int), (9 : Int)), (0, 3)]) 2
        [⟨0, ['d'], ['x'], ['u']⟩, ⟨1, ['e'], ['y'], ['v']⟩] ['q'] 5 =
        Except.ok results ∧
      results.length = min 5 2 ∧
      List.Pairwise (fun a b => b.score ≤ a.score) results ∧
      ∀ r ∈ results, ∃ h : r.id.toNat <
          ([⟨0, ['d'], ['x'], ['u']⟩, ⟨1, ['e'], ['y'], ['v']⟩] :
            List IndexEntry).length,
        r.doc = some (([⟨0, ['d'], ['x'], ['u']⟩, ⟨1, ['e'], ['y'], ['v']⟩] :
          List IndexEntry).get ⟨r.id.toNat, h⟩).doc ∧
        r.chunk_id = some (([⟨0, ['d'], ['x'], ['u']⟩,
          ⟨1, ['e'], ['y'], ['v']⟩] : List IndexEntry).get ⟨r.id.toNat, h⟩).chunk_id ∧
        r.chunk = some (([⟨0, ['d'], ['x'], ['u']⟩, ⟨1, ['e'], ['y'], ['v']⟩] :
          List IndexEntry).get ⟨r.id.toNat, h⟩).chunk :=
  search_result_contract (fun (s : Str) => s.length)
    (fun _ _ => [((1 : Int), (9 : Int)), (0, 3)]) 2
    [⟨0, ['d'], ['x'], ['u']⟩, ⟨1, ['e'], ['y'], ['v']⟩] ['q'] 5
    (by decide) (by decide) (by decide) (by decide) (by decide)

/-- A directory tree as seen by `fs.readdirSync(..., {withFileTypes: true})`:
each entry is a file or a directory with its own entries, in listing order. -/
inductive FsEntry where
  | file (name : Str)
  | dir (name : Str) (children : List FsEntry)

/-- `path.extname` on a single name: the part from the last dot to the end,
except that a name whose only dot is its leading character has no
extension. -/
def jsExtname (name : Str) : Str :=
  let rev := name.reverse
  let seg := rev.takeWhile (fun c => !(c == '.'))
  match rev.dropWhile (fun c => !(c == '.')) with
  | [] => []
  | '.' :: restRev => if restRev.isEmpty then [] else '.' :: seg.reverse
  | _ :: _ => []

/-- `.toLowerCase()` on an extension (ASCII model). -/
def toLowerStr (s : Str) : Str := s.map Char.toLower

/-- `entry.name.startsWith(".")`. -/
def startsWithDot : Str → Bool
  | '.' :: _ => true
  | _ => false

namespace DocCache

/-- The `getFiles` scanner of the change cache (src/unnamed/part_003 lines
119-145), returning paths relative to the scanned root as component lists.
Every entry whose name begins with a dot is skipped before anything else;
directories are entered only under `recursive`; an empty extension list
(also modelling an absent `options.extensions`) disables the filter. -/
def getFiles (recursive : Bool) (exts : List Str) : List FsEntry → List FsPath
  | [] => []
  | FsEntry.file n :: rest =>
    if startsWithDot n then getFiles recursive exts rest
    else
      (if !exts.isEmpty then
        (if exts.contains (toLowerStr (jsExtname n)) then [[n]] else [])
      else [[n]]) ++ getFiles recursive exts rest
  | FsEntry.dir n ch :: rest =>
    if startsWithDot n then getFiles recursive exts rest
    else
      (if recursive then (getFiles recursive exts ch).map (fun p => n :: p)
       else []) ++ getFiles recursive exts rest

end DocCache

namespace IndexBuilder

/-- The `getFiles` scanner shared by the CLI and the library build entry
points (src/lib/textSplitter.js lines 699-718 and src/unnamed/part_002
lines 158-176): same traversal, but with no dot check anywhere, and the
extension allow-list is always applied. -/
def getFiles (recursive : Bool) (exts : List Str) : List FsEntry → List FsPath
  | [] => []
  | FsEntry.file n :: rest =>
    (if exts.contains (toLowerStr (jsExtname n)) then [[n]] else []) ++
      getFiles recursive exts rest
  | FsEntry.dir n ch :: rest =>
    (if recursive then (getFiles recursive exts ch).map (fun p => n :: p)
     else []) ++ getFiles recursive exts rest

end IndexBuilder

theorem docCache_getFiles_no_dot_components (recursive : Bool)
    (exts : List Str) :
    ∀ (entries : List FsEntry) (p : FsPath),
    p ∈ DocCache.getFiles recursive exts entries →
    ∀ n ∈ p, startsWithDot n = false
  | [], p => by simp [DocCache.getFiles]
  | FsEntry.file n :: rest, p => by
    intro hp m hm
    rw [DocCache.getFiles] at hp
    by_cases hdot : startsWithDot n = true
    · rw [if_pos hdot] at hp
      exact docCache_getFiles_no_dot_components recursive exts rest p hp m hm
    · rw [if_neg hdot] at hp
      rcases List.mem_append.mp hp with hp | hp
      · have hpn : p = [n] := by
          split at hp
          · split at hp
            · exact List.mem_singleton.mp hp
            · cases hp
          · exact List.mem_singleton.mp hp
        subst hpn
        rcases List.mem_singleton.mp hm with rfl
        simpa using hdot
      · exact docCache_getFiles_no_dot_components recursive exts rest p hp m hm
  | FsEntry.dir n ch :: rest, p => by
    intro hp m hm
    rw [DocCache.getFiles] at hp
    by_cases hdot : startsWithDot n = true
    · rw [if_pos hdot] at hp
      exact docCache_getFiles_no_dot_components recursive exts rest p hp m hm
    · rw [if_neg hdot] at hp
      rcases List.mem_append.mp hp with hp | hp
      · split at hp
        · obtain ⟨q, hq, rfl⟩ := List.mem_map.mp hp
          rcases List.mem_cons.mp hm with rfl | hm
          · simpa using hdot
          · exact docCache_getFiles_no_dot_components recursive exts ch q hq m hm
        · cases hp
      · exact docCache_getFiles_no_dot_components recursive exts rest p hp m hm

theorem indexBuilder_getFiles_top_level (recursive : Bool) (exts : List Str) :
    ∀ (entries : List FsEntry) (n : Str),
    FsEntry.file n ∈ entries →
    exts.contains (toLowerStr (jsExtname n)) = true →
    [n] ∈ IndexBuilder.getFiles recursive exts entries
  | [], n => by simp
  | e :: rest, n => by
    intro hmem hext
    rcases List.mem_cons.mp hmem with rfl | hmem2
    · rw [IndexBuilder.getFiles, if_pos hext]
      exact List.mem_append_left _ (List.mem_singleton.mpr rfl)
    · cases e with
      | file m =>
        rw [IndexBuilder.getFiles]
        exact List.mem_append_right _
          (indexBuilder_getFiles_top_level recursive exts rest n hmem2 hext)
      | dir m ch =>
        rw [IndexBuilder.getFiles]
        exact List.mem_append_right _
          (indexBuilder_getFiles_top_level recursive exts rest n hmem2 hext)

/-- Claim C10 (confirmed): the change cache's `getFiles` silently drops
every entry whose name begins with a dot, at every depth, so no hidden name
ever appears in the cache or in any diff set; the index builder's `getFiles`
applies no such exclusion, so a dotfile whose extension passes the allow-list
is enumerated for chunking and indexing while being invisible to the change
cache scanner. -/
theorem hidden_file_divergence (recursive : Bool) (exts : List Str)
    (entries : List FsEntry) :
    (∀ p ∈ DocCache.getFiles recursive exts entries,
      ∀ n ∈ p, startsWithDot n = false) ∧
    (∀ n : Str, FsEntry.file n ∈ entries →
      exts.contains (toLowerStr (jsExtname n)) = true →
      startsWithDot n = true →
      ([n] ∈ IndexBuilder.getFiles recursive exts entries ∧
        [n] ∉ DocCache.getFiles recursive exts entries)) := by
  refine ⟨docCache_getFiles_no_dot_components recursive exts entries, ?_⟩
  intro n hmem hext hdot
  refine ⟨indexBuilder_getFiles_top_level recursive exts entries n hmem hext, ?_⟩
  intro hbad
  have := docCache_getFiles_no_dot_components recursive exts entries [n] hbad n
    (List.mem_singleton.mpr rfl)
  rw [this] at hdot
  cases hdot

/-- Witness for C10: the hidden file `.a.txt` passes the `.txt` allow-list,
is enumerated by the index builder's scanner and missed by the change
cache's scanner. -/
theorem hidden_file_divergence_witness :
    [['.', 'a', '.', 't', 'x', 't']] ∈ IndexBuilder.getFiles false
      [['.', 't', 'x', 't']]
      [FsEntry.file ['.', 'a', '.', 't', 'x', 't'],
        FsEntry.file ['b', '.', 't', 'x', 't']] ∧
    [['.', 'a', '.', 't', 'x', 't']] ∉ DocCache.getFiles false
      [['.', 't', 'x', 't']]
      [FsEntry.file ['.', 'a', '.', 't', 'x', 't'],
        FsEntry.file ['b', '.', 't', 'x', 't']] :=
  (hidden_file_divergence false [['.', 't', 'x', 't']]
      [FsEntry.file ['.', 'a', '.', 't', 'x', 't'],
        FsEntry.file ['b', '.', 't', 'x', 't']]).2
    ['.', 'a', '.', 't', 'x', 't'] (List.mem_cons_self _ _) (by decide)
    (by decide)
